import Mathlib

/-!
Shallow embedding of the Huffman image codec in src/huffman.py
(class HuffmanCompressor together with the heapq priority-queue
operations from the Python standard library that it calls).

Conventions:
* a pixel / sample is a Nat; every numpy uint8 cast is modelled by % 256;
* a bit string is a List Bool, false = the character "0", true = "1";
* a Python dict is an association list, insertion updates the value of the
  first occurrence of the key in place and otherwise appends (dictSet),
  lookup returns the value of the first occurrence (dictGet);
* Python exceptions (IndexError on heap[0] of an empty heap, KeyError on a
  missing code, ValueError of int on an empty string) are modelled by
  Option, none meaning the call raises;
* loops whose progress measure is not structural carry a fuel argument that
  callers instantiate with a provably sufficient bound, so every definition
  is structurally recursive and evaluates by kernel reduction.
-/

namespace HuffmanCoding

/-- Huffman tree node (huffman.py, class HuffmanNode): the source stores
char = None on merged internal nodes and a symbol on leaves; here that
tagged shape is a two-constructor inductive. -/
inductive HuffmanNode where
  | leaf (char : Nat) (freq : Nat)
  | node (freq : Nat) (left right : HuffmanNode)
deriving DecidableEq

instance : Inhabited HuffmanNode := ⟨HuffmanNode.leaf 0 0⟩

/-- Frequency field of a node; HuffmanNode.__lt__ (huffman.py line 14)
compares nodes by this field alone. -/
def HuffmanNode.freq : HuffmanNode → Nat
  | .leaf _ f => f
  | .node f _ _ => f

/-- True on a merged (internal, char = None) node. -/
def HuffmanNode.isNode : HuffmanNode → Bool
  | .leaf _ _ => false
  | .node _ _ _ => true

/-- Symbols at the leaves, left to right. -/
def HuffmanNode.leaves : HuffmanNode → List Nat
  | .leaf c _ => [c]
  | .node _ l r => l.leaves ++ r.leaves

/-- Loop of heapq._siftdown (CPython Lib/heapq.py): bubble newitem from
index pos up towards startpos, moving larger parents down, and finally
store newitem. The fuel argument only makes the recursion structural;
callers pass fuel = pos, which suffices because the parent index
(pos - 1) / 2 strictly decreases, and at fuel 0 the position is 0 so the
loop guard startpos < pos fails exactly as in the source. -/
def siftdownLoop (newitem : HuffmanNode) (startpos : Nat) :
    Nat → List HuffmanNode → Nat → List HuffmanNode
  | 0, heap, pos => heap.set pos newitem
  | fuel + 1, heap, pos =>
    if startpos < pos then
      let parentpos := (pos - 1) / 2
      let parent := heap.getD parentpos default
      if newitem.freq < parent.freq then
        siftdownLoop newitem startpos fuel (heap.set pos parent) parentpos
      else heap.set pos newitem
    else heap.set pos newitem

/-- heapq._siftdown(heap, startpos, pos): newitem is read at index pos. -/
def siftdown (heap : List HuffmanNode) (startpos pos : Nat) : List HuffmanNode :=
  siftdownLoop (heap.getD pos default) startpos pos heap pos

/-- heapq.heappush: append the item and sift it down from the last index. -/
def heappush (heap : List HuffmanNode) (item : HuffmanNode) : List HuffmanNode :=
  siftdown (heap ++ [item]) 0 heap.length

/-- Loop of heapq._siftup: walk down the tree moving the smaller child up,
returning the final heap and position. Callers pass fuel = heap.length,
sufficient because the child index 2 * pos + 1 strictly increases while it
stays below the (invariant) length; at fuel 0 the guard would fail too. -/
def siftupLoop (newitem : HuffmanNode) :
    Nat → List HuffmanNode → Nat → List HuffmanNode × Nat
  | 0, heap, pos => (heap, pos)
  | fuel + 1, heap, pos =>
    let childpos := 2 * pos + 1
    if childpos < heap.length then
      let c :=
        if childpos + 1 < heap.length ∧
            ¬(heap.getD childpos default).freq < (heap.getD (childpos + 1) default).freq
        then childpos + 1 else childpos
      siftupLoop newitem fuel (heap.set pos (heap.getD c default)) c
    else (heap, pos)

/-- heapq._siftup(heap, pos): read newitem at pos, walk down, store newitem
at the final position and sift it down towards the start position. -/
def siftup (heap : List HuffmanNode) (pos : Nat) : List HuffmanNode :=
  let newitem := heap.getD pos default
  let hp := siftupLoop newitem heap.length heap pos
  siftdown (hp.1.set hp.2 newitem) pos hp.2

/-- heapq.heappop: pop the last element; if the heap is still non-empty,
return its head after writing the popped element at index 0 and sifting up.
none models the IndexError on an empty heap. -/
def heappop : List HuffmanNode → Option (HuffmanNode × List HuffmanNode)
  | [] => none
  | [x] => some (x, [])
  | x :: y :: xs =>
    let lastelt := (y :: xs).getLast (List.cons_ne_nil y xs)
    some (x, siftup (lastelt :: (y :: xs).dropLast) 0)

/-- Distinct values of a list in order of first occurrence: the key order of
collections.Counter, hence of the frequency dict. -/
def dedupFirst : List Nat → List Nat
  | [] => []
  | x :: xs => x :: (dedupFirst xs).filter (fun y => y ≠ x)

/-- Model of _make_frequency_dict (huffman.py lines 23-24): Counter as an
association list, keys in first-occurrence order, values the counts. -/
def makeFrequencyDict (pixels : List Nat) : List (Nat × Nat) :=
  (dedupFirst pixels).map (fun k => (k, pixels.count k))

/-- Model of _make_heap (huffman.py lines 26-31): push one leaf per
frequency-table entry, in table order. -/
def makeHeap (frequency : List (Nat × Nat)) : List HuffmanNode :=
  frequency.foldl (fun heap kv => heappush heap (.leaf kv.1 kv.2)) []

/-- Loop of _merge_nodes (huffman.py lines 33-40): while the heap has more
than one node, pop two, push their merged parent. Callers pass
fuel = heap.length, sufficient since every iteration shrinks the heap by
one; at fuel 0 the length is at most 1 so the while guard fails as well. -/
def mergeLoop : Nat → List HuffmanNode → List HuffmanNode
  | 0, heap => heap
  | fuel + 1, heap =>
    if 1 < heap.length then
      match heappop heap with
      | none => heap
      | some (node1, h1) =>
        match heappop h1 with
        | none => heap
        | some (node2, h2) =>
          mergeLoop fuel (heappush h2 (.node (node1.freq + node2.freq) node1 node2))
    else heap

/-- Model of _merge_nodes applied to a heap. -/
def mergeNodes (heap : List HuffmanNode) : List HuffmanNode :=
  mergeLoop heap.length heap

/-- Specification helper: all leaf symbols across the trees of a heap. -/
def heapLeaves (heap : List HuffmanNode) : List Nat :=
  heap.flatMap HuffmanNode.leaves

/-- Python dict insertion: overwrite the value at the first occurrence of
the key, else append the new binding. -/
def dictSet {α β : Type} [DecidableEq α] : List (α × β) → α → β → List (α × β)
  | [], k, v => [(k, v)]
  | (k1, v1) :: rest, k, v =>
    if k1 = k then (k, v) :: rest else (k1, v1) :: dictSet rest k v

/-- Python dict lookup: value at the first occurrence of the key. -/
def dictGet {α β : Type} [DecidableEq α] : List (α × β) → α → Option β
  | [], _ => none
  | (k1, v1) :: rest, k => if k1 = k then some v1 else dictGet rest k

/-- Model of _make_codes (huffman.py lines 42-50): depth-first traversal
appending "0" (false) on left and "1" (true) on right descent, writing each
leaf into self.codes and self.reverse_mapping. The state argument is the
pair of those two dictionaries. At a leaf reached with the empty current
code (single-symbol tree) the assigned code is empty, as in the source. -/
def makeCodes :
    HuffmanNode → List Bool →
    List (Nat × List Bool) × List (List Bool × Nat) →
    List (Nat × List Bool) × List (List Bool × Nat)
  | .leaf c _, cc, st => (dictSet st.1 c cc, dictSet st.2 cc c)
  | .node _ l r, cc, st => makeCodes r (cc ++ [true]) (makeCodes l (cc ++ [false]) st)

/-- Specification helper: the (code, symbol) pairs produced by a traversal
of the tree, codes relative to the root. -/
def codeEntries : HuffmanNode → List (List Bool × Nat)
  | .leaf c _ => [([], c)]
  | .node _ l r =>
      (codeEntries l).map (fun e => (false :: e.1, e.2)) ++
      (codeEntries r).map (fun e => (true :: e.1, e.2))

/-- Big-endian bits of n, w digits, low bits of n only (the format string
b with width w in the source always receives values below 2 ^ w). -/
def natToBits : Nat → Nat → List Bool
  | 0, _ => []
  | w + 1, n => natToBits w (n / 2) ++ [decide (n % 2 = 1)]

/-- Value of a big-endian bit string, int(s, 2). -/
def bitsToNat (bits : List Bool) : Nat :=
  bits.foldl (fun acc b => 2 * acc + (if b then 1 else 0)) 0

/-- Chunk a bit string into bytes of 8 bits, most significant bit first;
a final short chunk becomes one byte, as int(s, 2) does in the source. -/
def bytesFromBits : List Bool → List Nat
  | [] => []
  | b1 :: b2 :: b3 :: b4 :: b5 :: b6 :: b7 :: b8 :: rest =>
      bitsToNat [b1, b2, b3, b4, b5, b6, b7, b8] :: bytesFromBits rest
  | short => [bitsToNat short]

/-- Model of _get_encoded_bytes (huffman.py lines 52-62): append
8 - len % 8 zero bits (which is 8, not 0, when the length is already a
multiple of 8), prepend that pad count as one 8-bit header byte, then pack
8 bits per byte, most significant bit first. -/
def getEncodedBytes (encodedText : List Bool) : List Nat :=
  let extraPadding := 8 - encodedText.length % 8
  let padded := encodedText ++ List.replicate extraPadding false
  bytesFromBits (natToBits 8 extraPadding ++ padded)

/-- Scalar quantization (huffman.py lines 70-72): integer division by the
factor when it exceeds 1, identity otherwise (no validity check); the
uint8 astype is the % 256. -/
def quantize (pixels : List Nat) (q : Nat) : List Nat :=
  if 1 < q then pixels.map (fun p => p / q % 256) else pixels

/-- Dequantization (huffman.py lines 139-145): multiply by the factor and
clip to [0, 255] when the factor exceeds 1, identity otherwise. The source
multiplies in float32 before clipping; for inputs at most 255 the float
computation agrees with exact natural multiplication followed by the clip,
because every product below 2 ^ 24 is exact and every larger intermediate
still clips to 255. -/
def dequantize (pixels : List Nat) (q : Nat) : List Nat :=
  if 1 < q then pixels.map (fun p => min (p * q) 255) else pixels

/-- Model of np.diff(pixels, prepend=0) on uint8 data (huffman.py line 84):
first difference modulo 256 against the previous element, seeded by the
explicit zero baseline. Well-defined modular subtraction needs prev < 256,
which holds at every call site. -/
def deltaForward (prev : Nat) : List Nat → List Nat
  | [] => []
  | x :: xs => (x + 256 - prev) % 256 :: deltaForward x xs

/-- Model of np.cumsum(deltas, dtype=np.uint8) (huffman.py line 137):
running sum modulo 256 seeded at 0. -/
def deltaInverse (acc : Nat) : List Nat → List Nat
  | [] => []
  | d :: ds => (acc + d) % 256 :: deltaInverse ((acc + d) % 256) ds

/-- The list comprehension [self.codes[p] for p in pixels] (huffman.py
line 97); none models the KeyError on a symbol without a code. -/
def lookupAll (codes : List (Nat × List Bool)) : List Nat → Option (List (List Bool))
  | [] => some []
  | x :: xs =>
    match dictGet codes x with
    | none => none
    | some c =>
      match lookupAll codes xs with
      | none => none
      | some cs => some (c :: cs)

/-- The decode loop (huffman.py lines 127-133): grow the accumulator one
bit at a time, emit a symbol and reset on a full match in reverse_mapping.
Bits left in the accumulator when the input ends are silently dropped. -/
def decodeLoop (reverseMapping : List (List Bool × Nat)) :
    List Bool → List Bool → List Nat
  | _, [] => []
  | currentCode, bit :: bits =>
    let cc := currentCode ++ [bit]
    match dictGet reverseMapping cc with
    | some ch => ch :: decodeLoop reverseMapping [] bits
    | none => decodeLoop reverseMapping cc bits

/-- Mutable fields of a HuffmanCompressor instance (huffman.py lines
19-21): self.codes and self.reverse_mapping. -/
structure CState where
  codes : List (Nat × List Bool)
  reverseMapping : List (List Bool × Nat)
deriving DecidableEq

/-- Tree construction at encode time (huffman.py lines 91-94): build the
heap from the frequency table, merge, take heap[0]; none models the
IndexError on an empty table. -/
def compressHuffmanTree (frequency : List (Nat × Nat)) : Option HuffmanNode :=
  (mergeNodes (makeHeap frequency)).head?

/-- Tree reconstruction at decode time (huffman.py lines 110-112): the
same heap build and merge, independently re-run from the received table. -/
def decompressHuffmanTree (frequency : List (Nat × Nat)) : Option HuffmanNode :=
  (mergeNodes (makeHeap frequency)).head?

/-- Model of compress_data (huffman.py lines 64-100) on an instance whose
current dictionaries are st: uint8 cast, optional quantization, delta with
zero baseline, frequency table, tree, code assignment written into the
instance dictionaries without clearing them first, concatenation of the
per-pixel codes, byte packing. Returns the new instance state with the
byte data and the frequency table. -/
def compressDataSt (st : CState) (pixels : List Nat) (q : Nat) :
    Option (CState × (List Nat × List (Nat × Nat))) :=
  let pix := pixels.map (fun p => p % 256)
  let pixq := quantize pix q
  let deltas := deltaForward 0 pixq
  let frequency := makeFrequencyDict deltas
  match compressHuffmanTree frequency with
  | none => none
  | some root =>
    let cr := makeCodes root [] (st.codes, st.reverseMapping)
    match lookupAll cr.1 deltas with
    | none => none
    | some codeList =>
      some (⟨cr.1, cr.2⟩, (getEncodedBytes codeList.flatten, frequency))

/-- compress_data called on a fresh HuffmanCompressor instance. -/
def compressData (pixels : List Nat) (q : Nat) :
    Option (List Nat × List (Nat × Nat)) :=
  (compressDataSt ⟨[], []⟩ pixels q).map (fun r => r.2)

/-- Model of decompress_data (huffman.py lines 102-147) on an instance
whose current dictionaries are _st (they are reset before use, so they do
not influence anything): rebuild the tree, reset and rebuild the
dictionaries, expand the bytes to bits, read the first 8 bits as the pad
count, drop them, strip that many bits from the tail (the Python slice
bit_string[:-0] yields the empty string, reproduced here by the
extraPadding = 0 case), run the decode loop, undo the delta by a modular
cumulative sum, dequantize. none models the IndexError on an empty
frequency table and the ValueError of int on an empty byte buffer. -/
def decompressDataSt (_st : CState) (byteData : List Nat)
    (frequency : List (Nat × Nat)) (q : Nat) : Option (CState × List Nat) :=
  match decompressHuffmanTree frequency with
  | none => none
  | some root =>
    let cr := makeCodes root [] ([], [])
    match byteData with
    | [] => none
    | _ :: _ =>
      let bits := (byteData.map (natToBits 8)).flatten
      let extraPadding := bitsToNat (bits.take 8)
      let bitString := bits.drop 8
      let encodedText :=
        if extraPadding = 0 then []
        else bitString.take (bitString.length - extraPadding)
      let decoded := decodeLoop cr.2 [] encodedText
      some (⟨cr.1, cr.2⟩, dequantize (deltaInverse 0 decoded) q)

/-- decompress_data called on a fresh HuffmanCompressor instance. -/
def decompressData (byteData : List Nat) (frequency : List (Nat × Nat))
    (q : Nat) : Option (List Nat) :=
  (decompressDataSt ⟨[], []⟩ byteData frequency q).map (fun r => r.2)

/-- Code table (both dictionaries) derived at encode time on a fresh
instance. -/
def compressCodeTable (frequency : List (Nat × Nat)) : Option CState :=
  (compressHuffmanTree frequency).map (fun root =>
    let cr := makeCodes root [] ([], [])
    ⟨cr.1, cr.2⟩)

/-- Code table independently rebuilt at decode time. -/
def decompressCodeTable (frequency : List (Nat × Nat)) : Option CState :=
  (decompressHuffmanTree frequency).map (fun root =>
    let cr := makeCodes root [] ([], [])
    ⟨cr.1, cr.2⟩)

end HuffmanCoding

namespace HuffmanCoding

/-! ### Basic permutation helpers for the heap operations -/

theorem getD_cons_set_perm {α : Type} (d x : α) :
    ∀ (t : List α) (m : Nat), m < t.length →
      List.Perm (t.getD m d :: t.set m x) (x :: t)
  | a :: t2, 0, _ => by
    simpa using List.Perm.swap x a t2
  | a :: t2, m + 1, hm => by
    have ih := getD_cons_set_perm d x t2 m (by simpa using hm)
    have h1 : List.Perm (t2.getD m d :: a :: t2.set m x)
        (a :: t2.getD m d :: t2.set m x) := List.Perm.swap a _ _
    have h2 : List.Perm (a :: t2.getD m d :: t2.set m x) (a :: x :: t2) :=
      ih.cons a
    have h3 : List.Perm (a :: x :: t2) (x :: a :: t2) := List.Perm.swap x a t2
    simpa using (h1.trans h2).trans h3

theorem cons_set_swap_perm {α : Type} (a x : α) :
    ∀ (t : List α) (m : Nat), m < t.length →
      List.Perm (x :: t.set m a) (a :: t.set m x)
  | c :: t2, 0, _ => by
    simpa using List.Perm.swap a x t2
  | c :: t2, m + 1, hm => by
    have ih := cons_set_swap_perm a x t2 m (by simpa using hm)
    have h1 : List.Perm (x :: c :: t2.set m a) (c :: x :: t2.set m a) :=
      List.Perm.swap c x _
    have h2 : List.Perm (c :: x :: t2.set m a) (c :: a :: t2.set m x) := ih.cons c
    have h3 : List.Perm (c :: a :: t2.set m x) (a :: c :: t2.set m x) :=
      List.Perm.swap a c _
    simpa using (h1.trans h2).trans h3

theorem set_getD_set_perm {α : Type} [Inhabited α] :
    ∀ (l : List α) (i j : Nat) (x : α), i ≠ j → i < l.length → j < l.length →
      List.Perm ((l.set i (l.getD j default)).set j x) (l.set i x)
  | a :: t, 0, 0, x, hij, _, _ => absurd rfl hij
  | a :: t, 0, m + 1, x, _, _, hj => by
    simpa using getD_cons_set_perm default x t m (by simpa using hj)
  | a :: t, n + 1, 0, x, _, hi, _ => by
    simpa using cons_set_swap_perm a x t n (by simpa using hi)
  | a :: t, n + 1, m + 1, x, hij, hi, hj => by
    have ih := set_getD_set_perm t n m x (by omega) (by simpa using hi)
      (by simpa using hj)
    simpa using ih.cons a

theorem set_getD_self {α : Type} (d : α) :
    ∀ (l : List α) (i : Nat), i < l.length → l.set i (l.getD i d) = l
  | a :: t, 0, _ => by simp
  | a :: t, i + 1, hi => by
    simpa using set_getD_self d t i (by simpa using hi)

end HuffmanCoding

namespace HuffmanCoding

/-! ### The sift operations permute the heap -/

theorem siftdownLoop_length (newitem : HuffmanNode) (startpos : Nat) :
    ∀ (fuel : Nat) (heap : List HuffmanNode) (pos : Nat),
      (siftdownLoop newitem startpos fuel heap pos).length = heap.length
  | 0, heap, pos => by simp [siftdownLoop]
  | fuel + 1, heap, pos => by
    simp only [siftdownLoop]
    split
    · split
      · rw [siftdownLoop_length newitem startpos fuel]
        simp
      · simp
    · simp

theorem siftdownLoop_perm (newitem : HuffmanNode) (startpos : Nat) :
    ∀ (fuel : Nat) (heap : List HuffmanNode) (pos : Nat),
      pos ≤ fuel → pos < heap.length →
      List.Perm (siftdownLoop newitem startpos fuel heap pos) (heap.set pos newitem)
  | 0, heap, pos, _, _ => by simp [siftdownLoop]
  | fuel + 1, heap, pos, hf, hp => by
    simp only [siftdownLoop]
    split
    · split
      · have hps : (pos - 1) / 2 < pos := by omega
        have ih := siftdownLoop_perm newitem startpos fuel
          (heap.set pos (heap.getD ((pos - 1) / 2) default)) ((pos - 1) / 2)
          (by omega) (by simpa using (by omega : (pos - 1) / 2 < heap.length))
        exact ih.trans (set_getD_set_perm heap pos ((pos - 1) / 2) newitem
          (by omega) hp (by omega))
      · exact List.Perm.refl _
    · exact List.Perm.refl _

theorem siftdown_length (heap : List HuffmanNode) (startpos pos : Nat) :
    (siftdown heap startpos pos).length = heap.length :=
  siftdownLoop_length _ _ _ _ _

theorem siftdown_perm (heap : List HuffmanNode) (startpos pos : Nat)
    (h : pos < heap.length) : List.Perm (siftdown heap startpos pos) heap := by
  have := siftdownLoop_perm (heap.getD pos default) startpos pos heap pos
    (Nat.le_refl pos) h
  rw [set_getD_self default heap pos h] at this
  exact this

theorem heappush_length (heap : List HuffmanNode) (item : HuffmanNode) :
    (heappush heap item).length = heap.length + 1 := by
  simp [heappush, siftdown_length]

theorem heappush_perm (heap : List HuffmanNode) (item : HuffmanNode) :
    List.Perm (heappush heap item) (item :: heap) := by
  have h1 : List.Perm (siftdown (heap ++ [item]) 0 heap.length) (heap ++ [item]) :=
    siftdown_perm _ _ _ (by simp)
  exact h1.trans (List.perm_append_singleton item heap)

theorem siftupLoop_length (newitem : HuffmanNode) :
    ∀ (fuel : Nat) (heap : List HuffmanNode) (pos : Nat),
      (siftupLoop newitem fuel heap pos).1.length = heap.length
  | 0, heap, pos => rfl
  | fuel + 1, heap, pos => by
    simp only [siftupLoop]
    split
    · rw [siftupLoop_length newitem fuel]
      simp
    · rfl

theorem siftupLoop_spec (newitem : HuffmanNode) :
    ∀ (fuel : Nat) (heap : List HuffmanNode) (pos : Nat), pos < heap.length →
      (siftupLoop newitem fuel heap pos).2 < heap.length ∧
      List.Perm ((siftupLoop newitem fuel heap pos).1.set
        (siftupLoop newitem fuel heap pos).2 newitem) (heap.set pos newitem)
  | 0, heap, pos, hp => ⟨hp, List.Perm.refl _⟩
  | fuel + 1, heap, pos, hp => by
    simp only [siftupLoop]
    split
    · set c := if 2 * pos + 1 + 1 < heap.length ∧
          ¬(heap.getD (2 * pos + 1) default).freq <
            (heap.getD (2 * pos + 1 + 1) default).freq
        then 2 * pos + 1 + 1 else 2 * pos + 1 with hc
      have hclt : c < heap.length := by
        rw [hc]; split
        · omega
        · omega
      have hcpos : pos < c := by rw [hc]; split <;> omega
      have ih := siftupLoop_spec newitem fuel
        (heap.set pos (heap.getD c default)) c (by simpa using hclt)
      refine ⟨by simpa using ih.1, ?_⟩
      exact ih.2.trans (set_getD_set_perm heap pos c newitem (by omega) hp hclt)
    · exact ⟨hp, List.Perm.refl _⟩

theorem siftup_length (heap : List HuffmanNode) (pos : Nat) :
    (siftup heap pos).length = heap.length := by
  simp [siftup, siftdown_length, siftupLoop_length]

theorem siftup_perm (heap : List HuffmanNode) (pos : Nat) (h : pos < heap.length) :
    List.Perm (siftup heap pos) heap := by
  obtain ⟨h1, h2⟩ := siftupLoop_spec (heap.getD pos default) heap.length heap pos h
  have hlen := siftupLoop_length (heap.getD pos default) heap.length heap pos
  have h3 : List.Perm (siftdown
      ((siftupLoop (heap.getD pos default) heap.length heap pos).1.set
        (siftupLoop (heap.getD pos default) heap.length heap pos).2
        (heap.getD pos default)) pos
      (siftupLoop (heap.getD pos default) heap.length heap pos).2)
      ((siftupLoop (heap.getD pos default) heap.length heap pos).1.set
        (siftupLoop (heap.getD pos default) heap.length heap pos).2
        (heap.getD pos default)) :=
    siftdown_perm _ _ _ (by rw [List.length_set, hlen]; exact h1)
  have h4 := h3.trans h2
  rw [set_getD_self default heap pos h] at h4
  exact h4

theorem heappop_some (heap : List HuffmanNode) (h : heap ≠ []) :
    ∃ r rest, heappop heap = some (r, rest) := by
  match heap with
  | [] => exact absurd rfl h
  | [x] => exact ⟨x, [], rfl⟩
  | x :: y :: xs => exact ⟨x, _, rfl⟩

theorem heappop_perm (heap : List HuffmanNode) (r : HuffmanNode)
    (rest : List HuffmanNode) (h : heappop heap = some (r, rest)) :
    List.Perm (r :: rest) heap := by
  match heap with
  | [] => simp [heappop] at h
  | [x] =>
    simp only [heappop, Option.some.injEq, Prod.mk.injEq] at h
    rw [← h.1, ← h.2]
  | x :: y :: xs =>
    simp only [heappop, Option.some.injEq, Prod.mk.injEq] at h
    obtain ⟨hr, hrest⟩ := h
    subst hr
    have hs : List.Perm rest
        ((y :: xs).getLast (List.cons_ne_nil y xs) :: (y :: xs).dropLast) := by
      rw [← hrest]
      exact siftup_perm _ _ (by simp)
    have h2 : List.Perm
        ((y :: xs).getLast (List.cons_ne_nil y xs) :: (y :: xs).dropLast)
        ((y :: xs).dropLast ++ [(y :: xs).getLast (List.cons_ne_nil y xs)]) :=
      (List.perm_append_singleton _ _).symm
    have h3 : (y :: xs).dropLast ++ [(y :: xs).getLast (List.cons_ne_nil y xs)]
        = y :: xs := List.dropLast_append_getLast (List.cons_ne_nil y xs)
    have h5 : List.Perm
        ((y :: xs).getLast (List.cons_ne_nil y xs) :: (y :: xs).dropLast)
        (y :: xs) := by
      conv_rhs => rw [← h3]
      exact h2
    exact (hs.trans h5).cons x

theorem heappop_length (heap : List HuffmanNode) (r : HuffmanNode)
    (rest : List HuffmanNode) (h : heappop heap = some (r, rest)) :
    rest.length + 1 = heap.length :=
  (heappop_perm heap r rest h).length_eq

end HuffmanCoding

namespace HuffmanCoding

/-! ### Tree construction: the merged tree collects exactly the heap leaves -/

theorem heapLeaves_perm {h1 h2 : List HuffmanNode} (p : List.Perm h1 h2) :
    List.Perm (heapLeaves h1) (heapLeaves h2) :=
  p.flatMap_right HuffmanNode.leaves

theorem heapLeaves_cons (x : HuffmanNode) (h : List HuffmanNode) :
    heapLeaves (x :: h) = x.leaves ++ heapLeaves h := by
  simp [heapLeaves]

theorem heappush_nil (x : HuffmanNode) : heappush [] x = [x] := rfl

theorem mergeLoop_spec_single (fuel : Nat) (t : HuffmanNode) :
    mergeLoop fuel [t] = [t] := by
  cases fuel <;> simp [mergeLoop]

theorem eq_singleton_of_short (heap : List HuffmanNode) (hne : heap ≠ [])
    (h : ¬1 < heap.length) : ∃ t, heap = [t] := by
  match heap with
  | [] => exact absurd rfl hne
  | [x] => exact ⟨x, rfl⟩
  | x :: y :: xs => simp at h

theorem mergeLoop_spec (fuel : Nat) :
    ∀ (heap : List HuffmanNode), heap ≠ [] → heap.length ≤ fuel + 1 →
      ∃ t, mergeLoop fuel heap = [t] ∧
        List.Perm t.leaves (heapLeaves heap) ∧
        (1 < heap.length → t.isNode = true) := by
  induction fuel with
  | zero =>
    intro heap hne hlen
    obtain ⟨t, rfl⟩ := eq_singleton_of_short heap hne (by simp at hlen ⊢; omega)
    exact ⟨t, rfl, by simp [heapLeaves], by simp⟩
  | succ fuel ih =>
    intro heap hne hlen
    by_cases hbig : 1 < heap.length
    · obtain ⟨n1, h1, hp1⟩ := heappop_some heap hne
      have hlen1 := heappop_length heap n1 h1 hp1
      have hne1 : h1 ≠ [] := by
        intro hh; rw [hh] at hlen1; simp at hlen1; omega
      obtain ⟨n2, h2l, hp2⟩ := heappop_some h1 hne1
      have hlen2 := heappop_length h1 n2 h2l hp2
      have hplen := heappush_length h2l (.node (n1.freq + n2.freq) n1 n2)
      have hne2 : heappush h2l (.node (n1.freq + n2.freq) n1 n2) ≠ [] := by
        intro hh; rw [hh] at hplen; simp at hplen
      obtain ⟨t, hmt, hperm, hnode⟩ :=
        ih (heappush h2l (.node (n1.freq + n2.freq) n1 n2)) hne2 (by omega)
      have hstep : mergeLoop (fuel + 1) heap =
          mergeLoop fuel (heappush h2l (.node (n1.freq + n2.freq) n1 n2)) := by
        simp only [mergeLoop, hbig, if_true, hp1, hp2]
      refine ⟨t, hstep.trans hmt, ?_, fun _ => ?_⟩
      · have q1 : List.Perm (heapLeaves (heappush h2l (.node (n1.freq + n2.freq) n1 n2)))
            (heapLeaves (HuffmanNode.node (n1.freq + n2.freq) n1 n2 :: h2l)) :=
          heapLeaves_perm (heappush_perm _ _)
        have q2 : heapLeaves (HuffmanNode.node (n1.freq + n2.freq) n1 n2 :: h2l)
            = (n1.leaves ++ n2.leaves) ++ heapLeaves h2l := by
          rw [heapLeaves_cons]; rfl
        have q3 : List.Perm (heapLeaves h1) (n2.leaves ++ heapLeaves h2l) := by
          have := heapLeaves_perm (heappop_perm h1 n2 h2l hp2)
          rw [heapLeaves_cons] at this
          exact this.symm
        have q4 : List.Perm (heapLeaves heap) (n1.leaves ++ heapLeaves h1) := by
          have := heapLeaves_perm (heappop_perm heap n1 h1 hp1)
          rw [heapLeaves_cons] at this
          exact this.symm
        have q12 : List.Perm t.leaves (n1.leaves ++ (n2.leaves ++ heapLeaves h2l)) := by
          have hq := hperm.trans q1
          rw [q2, List.append_assoc] at hq
          exact hq
        exact (q12.trans ((q3.symm).append_left n1.leaves)).trans q4.symm
      · by_cases h3 : 1 < (heappush h2l (.node (n1.freq + n2.freq) n1 n2)).length
        · exact hnode h3
        · have hz : h2l = [] := by
            rw [hplen] at h3
            exact List.eq_nil_of_length_eq_zero (by omega)
          rw [hz, heappush_nil, mergeLoop_spec_single] at hmt
          have : t = HuffmanNode.node (n1.freq + n2.freq) n1 n2 := by
            injection hmt.symm
          rw [this]; rfl
    · obtain ⟨t, rfl⟩ := eq_singleton_of_short heap hne hbig
      exact ⟨t, mergeLoop_spec_single _ t, by simp [heapLeaves],
        fun h => absurd h hbig⟩

end HuffmanCoding

namespace HuffmanCoding

theorem foldl_heappush_perm :
    ∀ (f : List (Nat × Nat)) (acc : List HuffmanNode),
      List.Perm (f.foldl (fun h kv => heappush h (.leaf kv.1 kv.2)) acc)
        (acc ++ f.map (fun kv => HuffmanNode.leaf kv.1 kv.2))
  | [], acc => by simp
  | kv :: f2, acc => by
    have ih := foldl_heappush_perm f2 (heappush acc (.leaf kv.1 kv.2))
    have h1 : List.Perm
        (heappush acc (.leaf kv.1 kv.2) ++
          f2.map (fun kv => HuffmanNode.leaf kv.1 kv.2))
        ((HuffmanNode.leaf kv.1 kv.2 :: acc) ++
          f2.map (fun kv => HuffmanNode.leaf kv.1 kv.2)) :=
      (heappush_perm acc _).append_right _
    simp only [List.foldl_cons, List.map_cons]
    exact ih.trans (h1.trans List.perm_middle.symm)

theorem makeHeap_perm (f : List (Nat × Nat)) :
    List.Perm (makeHeap f) (f.map (fun kv => HuffmanNode.leaf kv.1 kv.2)) := by
  have := foldl_heappush_perm f []
  simpa [makeHeap] using this

theorem makeHeap_length (f : List (Nat × Nat)) :
    (makeHeap f).length = f.length := by
  have := (makeHeap_perm f).length_eq
  simpa using this

theorem flatMap_leaves_map (f : List (Nat × Nat)) :
    (f.map (fun kv => HuffmanNode.leaf kv.1 kv.2)).flatMap HuffmanNode.leaves
      = f.map Prod.fst := by
  induction f with
  | nil => rfl
  | cons kv f2 ih => simp [HuffmanNode.leaves, ih]

theorem compressHuffmanTree_spec (f : List (Nat × Nat)) (hf : f ≠ []) :
    ∃ t, compressHuffmanTree f = some t ∧
      List.Perm t.leaves (f.map Prod.fst) ∧
      (1 < f.length → t.isNode = true) := by
  have hne : makeHeap f ≠ [] := by
    intro h
    have hl := makeHeap_length f
    rw [h] at hl
    exact hf (List.eq_nil_of_length_eq_zero hl.symm)
  obtain ⟨t, ht, hperm, hnode⟩ :=
    mergeLoop_spec (makeHeap f).length (makeHeap f) hne (by omega)
  refine ⟨t, ?_, ?_, ?_⟩
  · rw [compressHuffmanTree, mergeNodes, ht]
    rfl
  · have h2 : List.Perm (heapLeaves (makeHeap f))
        (heapLeaves (f.map (fun kv => HuffmanNode.leaf kv.1 kv.2))) :=
      heapLeaves_perm (makeHeap_perm f)
    have h3 : heapLeaves (f.map (fun kv => HuffmanNode.leaf kv.1 kv.2))
        = f.map Prod.fst := flatMap_leaves_map f
    rw [h3] at h2
    exact hperm.trans h2
  · intro h
    exact hnode (by rw [makeHeap_length]; exact h)

/-! ### Frequency table: distinct keys covering every encoded symbol -/

theorem dedupFirst_nodup : ∀ (l : List Nat), (dedupFirst l).Nodup
  | [] => List.nodup_nil
  | x :: xs => by
    rw [dedupFirst]
    refine List.Nodup.cons ?_ ((dedupFirst_nodup xs).filter _)
    intro h
    have := List.of_mem_filter h
    simp at this

theorem mem_dedupFirst : ∀ (l : List Nat) (a : Nat), a ∈ dedupFirst l ↔ a ∈ l
  | [], a => by simp [dedupFirst]
  | x :: xs, a => by
    rw [dedupFirst]
    by_cases hax : a = x
    · subst hax
      simp
    · simp only [List.mem_cons, hax, false_or]
      rw [List.mem_filter]
      simp [hax, mem_dedupFirst xs a]

theorem makeFrequencyDict_keys (l : List Nat) :
    (makeFrequencyDict l).map Prod.fst = dedupFirst l := by
  rw [makeFrequencyDict, List.map_map]
  exact List.map_id'' (fun k => rfl) (dedupFirst l)

theorem makeFrequencyDict_ne_nil (l : List Nat) (h : l ≠ []) :
    makeFrequencyDict l ≠ [] := by
  match l with
  | [] => exact absurd rfl h
  | x :: xs => simp [makeFrequencyDict, dedupFirst]

end HuffmanCoding

namespace HuffmanCoding

/-! ### Code entries: the codes of a tree are non-empty on internal roots,
have pairwise distinct symbols and paths, and are prefix free -/

theorem makeCodes_eq (t : HuffmanNode) :
    ∀ (cc : List Bool) (st : List (Nat × List Bool) × List (List Bool × Nat)),
      makeCodes t cc st =
        ((codeEntries t).foldl (fun d e => dictSet d e.2 (cc ++ e.1)) st.1,
         (codeEntries t).foldl (fun d e => dictSet d (cc ++ e.1) e.2) st.2) := by
  induction t with
  | leaf c fr => intro cc st; simp [makeCodes, codeEntries]
  | node fr l r ihl ihr =>
    intro cc st
    simp only [makeCodes]
    rw [ihr, ihl]
    simp only [codeEntries, List.foldl_append, List.foldl_map,
      List.append_assoc, List.singleton_append]

theorem codeEntries_syms : ∀ (t : HuffmanNode),
    (codeEntries t).map Prod.snd = t.leaves
  | .leaf c fr => rfl
  | .node fr l r => by
    have ihl := codeEntries_syms l
    have ihr := codeEntries_syms r
    simp only [codeEntries, HuffmanNode.leaves, List.map_append, List.map_map]
    rw [← ihl, ← ihr]
    congr 1

theorem codeEntries_paths_nodup : ∀ (t : HuffmanNode),
    ((codeEntries t).map Prod.fst).Nodup
  | .leaf c fr => by simp [codeEntries]
  | .node fr l r => by
    have ihl := codeEntries_paths_nodup l
    have ihr := codeEntries_paths_nodup r
    simp only [codeEntries, List.map_append, List.map_map]
    have el : (codeEntries l).map (Prod.fst ∘ fun e => (false :: e.1, e.2))
        = ((codeEntries l).map Prod.fst).map (fun p => false :: p) := by
      rw [List.map_map]
      exact List.map_congr_left (fun e _ => rfl)
    have er : (codeEntries r).map (Prod.fst ∘ fun e => (true :: e.1, e.2))
        = ((codeEntries r).map Prod.fst).map (fun p => true :: p) := by
      rw [List.map_map]
      exact List.map_congr_left (fun e _ => rfl)
    rw [el, er]
    refine List.Nodup.append (ihl.map ?_) (ihr.map ?_) ?_
    · intro a b h
      simpa using h
    · intro a b h
      simpa using h
    · intro p hp hq
      simp only [List.mem_map] at hp hq
      obtain ⟨a, _, ha⟩ := hp
      obtain ⟨b, _, hb⟩ := hq
      rw [← ha] at hb
      simp at hb

theorem codeEntries_prefixFree : ∀ (t : HuffmanNode),
    ∀ p1 ∈ (codeEntries t).map Prod.fst, ∀ p2 ∈ (codeEntries t).map Prod.fst,
      p1 <+: p2 → p1 = p2
  | .leaf c fr => by simp [codeEntries]
  | .node fr l r => by
    have ihl := codeEntries_prefixFree l
    have ihr := codeEntries_prefixFree r
    intro p1 hp1 p2 hp2 hpre
    simp only [codeEntries, List.map_append, List.map_map, List.mem_append,
      List.mem_map, Function.comp] at hp1 hp2
    rcases hp1 with ⟨e1, he1, rfl⟩ | ⟨e1, he1, rfl⟩ <;>
      rcases hp2 with ⟨e2, he2, rfl⟩ | ⟨e2, he2, rfl⟩
    · rw [List.cons_prefix_cons] at hpre
      have := ihl e1.1 (List.mem_map_of_mem Prod.fst he1)
        e2.1 (List.mem_map_of_mem Prod.fst he2) hpre.2
      rw [this]
    · rw [List.cons_prefix_cons] at hpre
      exact absurd hpre.1 (by simp)
    · rw [List.cons_prefix_cons] at hpre
      exact absurd hpre.1 (by simp)
    · rw [List.cons_prefix_cons] at hpre
      have := ihr e1.1 (List.mem_map_of_mem Prod.fst he1)
        e2.1 (List.mem_map_of_mem Prod.fst he2) hpre.2
      rw [this]

theorem codeEntries_path_ne_nil (t : HuffmanNode) (ht : t.isNode = true) :
    ∀ p ∈ (codeEntries t).map Prod.fst, p ≠ [] := by
  match t with
  | .leaf c fr => simp [HuffmanNode.isNode] at ht
  | .node fr l r =>
    intro p hp
    simp only [codeEntries, List.map_append, List.map_map, List.mem_append,
      List.mem_map, Function.comp] at hp
    rcases hp with ⟨e, _, rfl⟩ | ⟨e, _, rfl⟩ <;> simp

end HuffmanCoding

namespace HuffmanCoding

/-! ### Dictionary lemmas -/

theorem dictGet_dictSet_self {α β : Type} [DecidableEq α] :
    ∀ (d : List (α × β)) (k : α) (v : β), dictGet (dictSet d k v) k = some v
  | [], k, v => by simp [dictSet, dictGet]
  | (k1, v1) :: rest, k, v => by
    by_cases h : k1 = k
    · simp [dictSet, dictGet, h]
    · simp only [dictSet, if_neg h, dictGet]
      exact dictGet_dictSet_self rest k v

theorem dictGet_dictSet_ne {α β : Type} [DecidableEq α] :
    ∀ (d : List (α × β)) (k : α) (v : β) (k0 : α), k0 ≠ k →
      dictGet (dictSet d k v) k0 = dictGet d k0
  | [], k, v, k0, h => by
    have h2 : ¬k = k0 := fun hh => h hh.symm
    simp [dictSet, dictGet, h2]
  | (k1, v1) :: rest, k, v, k0, h => by
    have h2 : ¬k = k0 := fun hh => h hh.symm
    by_cases h1 : k1 = k
    · subst h1
      simp [dictSet, dictGet, h2]
    · simp only [dictSet, if_neg h1, dictGet]
      by_cases h3 : k1 = k0
      · simp [h3]
      · simp only [if_neg h3]
        exact dictGet_dictSet_ne rest k v k0 h

theorem dictGet_foldl_not_mem {α β : Type} [DecidableEq α] :
    ∀ (ps : List (α × β)) (d0 : List (α × β)) (k : α), k ∉ ps.map Prod.fst →
      dictGet (ps.foldl (fun d e => dictSet d e.1 e.2) d0) k = dictGet d0 k
  | [], d0, k, _ => rfl
  | e :: ps, d0, k, h => by
    simp only [List.map_cons, List.mem_cons, not_or] at h
    rw [List.foldl_cons, dictGet_foldl_not_mem ps _ k h.2,
      dictGet_dictSet_ne d0 e.1 e.2 k h.1]

theorem dictGet_foldl_mem {α β : Type} [DecidableEq α] :
    ∀ (ps : List (α × β)) (d0 : List (α × β)) (k : α) (v : β),
      (ps.map Prod.fst).Nodup → (k, v) ∈ ps →
      dictGet (ps.foldl (fun d e => dictSet d e.1 e.2) d0) k = some v
  | [], d0, k, v, _, hm => by simp at hm
  | e :: ps, d0, k, v, hnd, hm => by
    simp only [List.map_cons, List.nodup_cons] at hnd
    rcases List.mem_cons.mp hm with he | hm2
    · rw [← he] at hnd ⊢
      rw [List.foldl_cons, dictGet_foldl_not_mem ps _ k hnd.1,
        dictGet_dictSet_self]
    · rw [List.foldl_cons]
      exact dictGet_foldl_mem ps _ k v hnd.2 hm2

/-! ### Looking up every pixel code succeeds when each symbol has a code -/

theorem lookupAll_eq_map (codes : List (Nat × List Bool)) (f : Nat → List Bool) :
    ∀ (xs : List Nat), (∀ x ∈ xs, dictGet codes x = some (f x)) →
      lookupAll codes xs = some (xs.map f)
  | [], _ => rfl
  | x :: xs, h => by
    rw [lookupAll, h x (by simp),
      lookupAll_eq_map codes f xs (fun y hy => h y (by simp [hy]))]
    rfl

/-! ### The greedy decode loop inverts code concatenation -/

theorem decodeLoop_emit (rev : List (List Bool × Nat)) (c : List Bool) (s : Nat)
    (hc : dictGet rev c = some s)
    (hpre : ∀ p, p <+: c → p ≠ c → dictGet rev p = none) :
    ∀ (b : List Bool), ∀ (a : List Bool) (rest : List Bool), c = a ++ b → b ≠ [] →
      decodeLoop rev a (b ++ rest) = s :: decodeLoop rev [] rest
  | [], a, rest, _, hb => absurd rfl hb
  | x :: b2, a, rest, hab, _ => by
    match b2, hab with
    | [], hab =>
      simp only [List.cons_append, List.nil_append, decodeLoop]
      rw [← hab, hc]
      rfl
    | y :: b3, hab =>
      have hprefix : (a ++ [x]) <+: c := by
        rw [hab, List.append_cons a x (y :: b3)]
        exact List.prefix_append _ _
      have hne : a ++ [x] ≠ c := by
        intro h
        have h1 : (a ++ [x]).length = c.length := by rw [h]
        rw [hab] at h1
        simp at h1
      have hrec := decodeLoop_emit rev c s hc hpre (y :: b3) (a ++ [x]) rest
        (by rw [hab, List.append_cons a x (y :: b3)]) (by simp)
      simp only [List.cons_append, decodeLoop]
      rw [hpre (a ++ [x]) hprefix hne]
      exact hrec

theorem decodeLoop_flatten (rev : List (List Bool × Nat)) :
    ∀ (l : List (List Bool × Nat)),
      (∀ e ∈ l, e.1 ≠ [] ∧ dictGet rev e.1 = some e.2 ∧
        ∀ p, p <+: e.1 → p ≠ e.1 → dictGet rev p = none) →
      decodeLoop rev [] (l.map Prod.fst).flatten = l.map Prod.snd
  | [], _ => rfl
  | e :: l2, h => by
    obtain ⟨hne, hget, hpre⟩ := h e (by simp)
    simp only [List.map_cons, List.flatten_cons]
    rw [decodeLoop_emit rev e.1 e.2 hget hpre e.1 [] ((l2.map Prod.fst).flatten)
      (by simp) hne]
    rw [decodeLoop_flatten rev l2 (fun x hx => h x (by simp [hx]))]

end HuffmanCoding

namespace HuffmanCoding

/-! ### Bit packing and unpacking -/

theorem natToBits_length : ∀ (w n : Nat), (natToBits w n).length = w
  | 0, _ => rfl
  | w + 1, n => by simp [natToBits, natToBits_length w]

theorem natToBits_bitsToNat : ∀ (c : List Bool), natToBits c.length (bitsToNat c) = c := by
  intro c
  induction c using List.reverseRecOn with
  | nil => rfl
  | append_singleton c2 b ih =>
    have hb : bitsToNat (c2 ++ [b]) = 2 * bitsToNat c2 + (if b then 1 else 0) := by
      simp [bitsToNat, List.foldl_append]
    have hlen : (c2 ++ [b]).length = c2.length + 1 := by simp
    rw [hlen, hb]
    have h1 : (2 * bitsToNat c2 + (if b then 1 else 0)) / 2 = bitsToNat c2 := by
      cases b <;> simp [Nat.mul_add_div]
    have h2 : decide ((2 * bitsToNat c2 + (if b then 1 else 0)) % 2 = 1) = b := by
      cases b <;> simp [Nat.mul_add_mod]
    simp only [natToBits, h1, h2, ih]

theorem bitsToNat_natToBits_eight (n : Nat) (h : n ≤ 8) :
    bitsToNat (natToBits 8 n) = n := by
  interval_cases n <;> rfl

theorem bytesFromBits_cons8 (c : List Bool) (rest : List Bool) (h : c.length = 8) :
    bytesFromBits (c ++ rest) = bitsToNat c :: bytesFromBits rest := by
  rcases c with _ | ⟨b1, _ | ⟨b2, _ | ⟨b3, _ | ⟨b4, _ | ⟨b5, _ | ⟨b6, _ | ⟨b7, _ | ⟨b8, c9⟩⟩⟩⟩⟩⟩⟩⟩ <;>
    simp only [List.length_cons, List.length_nil] at h <;> try omega
  have h9 : c9 = [] := List.eq_nil_of_length_eq_zero (by omega)
  subst h9
  rfl

theorem bytesFromBits_flatten_aux :
    ∀ (n : Nat) (bits : List Bool), bits.length ≤ n → bits.length % 8 = 0 →
      ((bytesFromBits bits).map (natToBits 8)).flatten = bits := by
  intro n
  induction n with
  | zero =>
    intro bits hle _
    have hnil : bits = [] := List.eq_nil_of_length_eq_zero (by omega)
    subst hnil
    rfl
  | succ n ih =>
    intro bits hle hmod
    match bits with
    | [] => rfl
    | b :: bs =>
      have hlen8 : 8 ≤ (b :: bs).length := by
        simp only [List.length_cons] at hmod ⊢
        omega
      have htl : ((b :: bs).take 8).length = 8 := by
        rw [List.length_take]
        omega
      have hsplit : b :: bs = (b :: bs).take 8 ++ (b :: bs).drop 8 :=
        (List.take_append_drop 8 (b :: bs)).symm
      rw [hsplit, bytesFromBits_cons8 _ _ htl]
      simp only [List.map_cons, List.flatten_cons]
      have hinv := natToBits_bitsToNat ((b :: bs).take 8)
      rw [htl] at hinv
      rw [hinv]
      rw [ih ((b :: bs).drop 8) (by simp only [List.length_drop]; omega)
        (by simp only [List.length_drop]; omega)]

theorem bytesFromBits_flatten (bits : List Bool) (h : bits.length % 8 = 0) :
    ((bytesFromBits bits).map (natToBits 8)).flatten = bits :=
  bytesFromBits_flatten_aux bits.length bits (Nat.le_refl _) h

theorem bytesFromBits_ne_nil (bits : List Bool) (h : bits ≠ []) :
    bytesFromBits bits ≠ [] := by
  rcases bits with _ | ⟨b1, _ | ⟨b2, _ | ⟨b3, _ | ⟨b4, _ | ⟨b5, _ | ⟨b6, _ | ⟨b7, _ | ⟨b8, c9⟩⟩⟩⟩⟩⟩⟩⟩
  · exact absurd rfl h
  all_goals simp [bytesFromBits]

theorem getEncodedBytes_eq (B : List Bool) :
    getEncodedBytes B = (8 - B.length % 8) ::
      bytesFromBits (B ++ List.replicate (8 - B.length % 8) false) := by
  rw [getEncodedBytes, bytesFromBits_cons8 _ _ (natToBits_length 8 _),
    bitsToNat_natToBits_eight _ (by omega)]

theorem getEncodedBytes_ne_nil (B : List Bool) : getEncodedBytes B ≠ [] := by
  rw [getEncodedBytes_eq]
  simp

/-! ### Delta transform and its inverse -/

theorem deltaForward_length (prev : Nat) :
    ∀ (l : List Nat), (deltaForward prev l).length = l.length
  | [] => rfl
  | x :: xs => by simp [deltaForward, deltaForward_length x xs]

theorem deltaInverse_deltaForward :
    ∀ (l : List Nat) (prev : Nat), prev < 256 → (∀ x ∈ l, x < 256) →
      deltaInverse prev (deltaForward prev l) = l
  | [], _, _, _ => rfl
  | x :: xs, prev, hp, hl => by
    have hx : x < 256 := hl x (by simp)
    have hhead : (prev + (x + 256 - prev) % 256) % 256 = x := by omega
    simp only [deltaForward, deltaInverse, hhead]
    rw [deltaInverse_deltaForward xs x hx (fun y hy => hl y (by simp [hy]))]

/-! ### Quantization -/

theorem quantize_length (l : List Nat) (q : Nat) :
    (quantize l q).length = l.length := by
  rw [quantize]
  split <;> simp

theorem quantize_lt (l : List Nat) (q : Nat) (h : ∀ x ∈ l, x < 256) :
    ∀ x ∈ quantize l q, x < 256 := by
  rw [quantize]
  split
  · intro x hx
    simp only [List.mem_map] at hx
    obtain ⟨p, _, rfl⟩ := hx
    omega
  · exact h

theorem quantize_nil (q : Nat) : quantize [] q = [] := by
  rw [quantize]
  split <;> rfl

theorem dequantize_nil (q : Nat) : dequantize [] q = [] := by
  rw [dequantize]
  split <;> rfl

end HuffmanCoding

namespace HuffmanCoding

/-! ### Lookup facts for the two dictionaries built by makeCodes -/

theorem dictGet_foldl_swap_not_mem {α β : Type} [DecidableEq α] :
    ∀ (ps : List (β × α)) (d0 : List (α × β)) (k : α), k ∉ ps.map Prod.snd →
      dictGet (ps.foldl (fun d e => dictSet d e.2 e.1) d0) k = dictGet d0 k
  | [], _, _, _ => rfl
  | e :: ps, d0, k, h => by
    simp only [List.map_cons, List.mem_cons, not_or] at h
    rw [List.foldl_cons, dictGet_foldl_swap_not_mem ps _ k h.2,
      dictGet_dictSet_ne d0 e.2 e.1 k h.1]

theorem dictGet_foldl_swap_mem {α β : Type} [DecidableEq α] :
    ∀ (ps : List (β × α)) (d0 : List (α × β)) (v : β) (k : α),
      (ps.map Prod.snd).Nodup → (v, k) ∈ ps →
      dictGet (ps.foldl (fun d e => dictSet d e.2 e.1) d0) k = some v
  | [], _, _, _, _, hm => by simp at hm
  | e :: ps, d0, v, k, hnd, hm => by
    simp only [List.map_cons, List.nodup_cons] at hnd
    rcases List.mem_cons.mp hm with he | hm2
    · rw [← he] at hnd ⊢
      rw [List.foldl_cons, dictGet_foldl_swap_not_mem ps _ k hnd.1,
        dictGet_dictSet_self]
    · rw [List.foldl_cons]
      exact dictGet_foldl_swap_mem ps _ v k hnd.2 hm2

theorem codes_entry_exists (t : HuffmanNode) (s : Nat) (hs : s ∈ t.leaves) :
    ∃ p, (p, s) ∈ codeEntries t := by
  rw [← codeEntries_syms t] at hs
  simp only [List.mem_map] at hs
  obtain ⟨e, he, hes⟩ := hs
  refine ⟨e.1, ?_⟩
  rw [← hes]
  exact he

theorem codesDict_get (t : HuffmanNode) (hnd : t.leaves.Nodup)
    (c0 : List (Nat × List Bool)) (r0 : List (List Bool × Nat))
    (p : List Bool) (s : Nat) (he : (p, s) ∈ codeEntries t) :
    dictGet (makeCodes t [] (c0, r0)).1 s = some p := by
  rw [makeCodes_eq]
  simp only [List.nil_append]
  exact dictGet_foldl_swap_mem (codeEntries t) c0 p s
    (by rw [codeEntries_syms]; exact hnd) he

theorem revDict_get (t : HuffmanNode)
    (c0 : List (Nat × List Bool)) (r0 : List (List Bool × Nat))
    (p : List Bool) (s : Nat) (he : (p, s) ∈ codeEntries t) :
    dictGet (makeCodes t [] (c0, r0)).2 p = some s := by
  rw [makeCodes_eq]
  simp only [List.nil_append]
  exact dictGet_foldl_mem (codeEntries t) r0 p s (codeEntries_paths_nodup t) he

theorem revDict_get_none (t : HuffmanNode) (c0 : List (Nat × List Bool))
    (p : List Bool) (hp : p ∉ (codeEntries t).map Prod.fst) :
    dictGet (makeCodes t [] (c0, [])).2 p = none := by
  rw [makeCodes_eq]
  simp only [List.nil_append]
  rw [dictGet_foldl_not_mem (codeEntries t) [] p hp]
  rfl

/-- On an internal root, decoding the concatenation of the codes of a
symbol sequence recovers that sequence. -/
theorem decode_encode_bits (t : HuffmanNode) (ht : t.isNode = true)
    (ds : List Nat) (f : Nat → List Bool)
    (hentry : ∀ d ∈ ds, (f d, d) ∈ codeEntries t) :
    decodeLoop (makeCodes t [] ([], [])).2 [] ((ds.map f).flatten) = ds := by
  have hl : (ds.map (fun d => (f d, d))).map Prod.fst = ds.map f := by
    rw [List.map_map]
    exact List.map_congr_left (fun d _ => rfl)
  have hl2 : (ds.map (fun d => (f d, d))).map Prod.snd = ds := by
    rw [List.map_map]
    exact List.map_id'' (fun _ => rfl) ds
  rw [← hl]
  conv_rhs => rw [← hl2]
  apply decodeLoop_flatten
  intro e he
  simp only [List.mem_map] at he
  obtain ⟨d, hd, rfl⟩ := he
  have hent := hentry d hd
  have hpaths : f d ∈ (codeEntries t).map Prod.fst :=
    List.mem_map_of_mem Prod.fst hent
  refine ⟨codeEntries_path_ne_nil t ht (f d) hpaths, revDict_get t [] [] (f d) d hent, ?_⟩
  intro p hp hne
  apply revDict_get_none
  intro hmem
  exact hne (codeEntries_prefixFree t p hmem (f d) hpaths hp)

/-! ### Unfolding the two pipeline functions -/

theorem same_tree (frequency : List (Nat × Nat)) :
    decompressHuffmanTree frequency = compressHuffmanTree frequency := rfl

theorem compressData_eq (pixels : List Nat) (q : Nat) (root : HuffmanNode)
    (hroot : compressHuffmanTree (makeFrequencyDict (deltaForward 0
      (quantize (pixels.map (fun p => p % 256)) q))) = some root)
    (codeList : List (List Bool))
    (hlook : lookupAll (makeCodes root [] ([], [])).1
      (deltaForward 0 (quantize (pixels.map (fun p => p % 256)) q)) = some codeList) :
    compressData pixels q = some (getEncodedBytes codeList.flatten,
      makeFrequencyDict (deltaForward 0 (quantize (pixels.map (fun p => p % 256)) q))) := by
  simp only [compressData, compressDataSt, hroot, hlook, Option.map_some']

theorem decompressData_eq (byteData : List Nat) (frequency : List (Nat × Nat))
    (q : Nat) (root : HuffmanNode)
    (hroot : decompressHuffmanTree frequency = some root) (hbne : byteData ≠ []) :
    decompressData byteData frequency q = some
      (dequantize (deltaInverse 0 (decodeLoop (makeCodes root [] ([], [])).2 []
        (if bitsToNat (((byteData.map (natToBits 8)).flatten).take 8) = 0 then []
         else (((byteData.map (natToBits 8)).flatten).drop 8).take
           ((((byteData.map (natToBits 8)).flatten).drop 8).length -
             bitsToNat (((byteData.map (natToBits 8)).flatten).take 8))))) q) := by
  match byteData with
  | [] => exact absurd rfl hbne
  | b :: bs =>
    simp only [decompressData, decompressDataSt, hroot, Option.map_some']

end HuffmanCoding

namespace HuffmanCoding

theorem isNode_false (t : HuffmanNode) (h : ¬t.isNode = true) :
    ∃ c fr, t = .leaf c fr := by
  match t with
  | .leaf c fr => exact ⟨c, fr, rfl⟩
  | .node _ _ _ => simp [HuffmanNode.isNode] at h

/-- End-to-end behaviour of the codec on a non-empty pixel list: compression
succeeds, decompression of its output succeeds, and the reconstruction is
either empty (the degenerate single-symbol alphabet, whose code is the
empty string) or exactly the dequantized quantized input. -/
theorem pipeline_spec (S : List Nat) (q : Nat) (hS : S ≠ []) :
    ∃ enc freq out, compressData S q = some (enc, freq) ∧
      decompressData enc freq q = some out ∧
      (out = [] ∨ out = dequantize (quantize (S.map (fun p => p % 256)) q) q) := by
  set pix : List Nat := S.map (fun p => p % 256) with hpix
  set pixq : List Nat := quantize pix q with hpixq
  set deltas : List Nat := deltaForward 0 pixq with hdeltas
  set freq : List (Nat × Nat) := makeFrequencyDict deltas with hfreq
  have hlenpix : pix.length = S.length := by rw [hpix, List.length_map]
  have hlenq : pixq.length = S.length := by rw [hpixq, quantize_length, hlenpix]
  have hlend : deltas.length = S.length := by
    rw [hdeltas, deltaForward_length, hlenq]
  have hdne : deltas ≠ [] := by
    intro h
    apply hS
    apply List.eq_nil_of_length_eq_zero
    rw [← hlend, h, List.length_nil]
  have hfne : freq ≠ [] := by rw [hfreq]; exact makeFrequencyDict_ne_nil deltas hdne
  obtain ⟨t, ht, hleaves, _⟩ := compressHuffmanTree_spec freq hfne
  have hkeys : freq.map Prod.fst = dedupFirst deltas := by
    rw [hfreq]; exact makeFrequencyDict_keys deltas
  have hnd : t.leaves.Nodup := by
    have h1 : (freq.map Prod.fst).Nodup := by
      rw [hkeys]; exact dedupFirst_nodup deltas
    exact hleaves.symm.nodup h1
  have hmem : ∀ d ∈ deltas, d ∈ t.leaves := by
    intro d hd
    have h2 : d ∈ freq.map Prod.fst := by
      rw [hkeys]; exact (mem_dedupFirst deltas d).mpr hd
    exact hleaves.mem_iff.mpr h2
  set f : Nat → List Bool :=
    fun d => (dictGet (makeCodes t [] ([], [])).1 d).getD [] with hf
  have hentry : ∀ d ∈ deltas, (f d, d) ∈ codeEntries t := by
    intro d hd
    obtain ⟨p, hp⟩ := codes_entry_exists t d (hmem d hd)
    have hg : dictGet (makeCodes t [] ([], [])).1 d = some p :=
      codesDict_get t hnd [] [] p d hp
    have hfd : f d = p := by rw [hf]; simp [hg]
    rw [hfd]
    exact hp
  have hget : ∀ d ∈ deltas, dictGet (makeCodes t [] ([], [])).1 d = some (f d) :=
    fun d hd => codesDict_get t hnd [] [] (f d) d (hentry d hd)
  have hlook : lookupAll (makeCodes t [] ([], [])).1 deltas = some (deltas.map f) :=
    lookupAll_eq_map _ f deltas hget
  have hcomp : compressData S q =
      some (getEncodedBytes (deltas.map f).flatten, freq) := by
    have hh := compressData_eq S q t
      (by rw [← hpix, ← hpixq, ← hdeltas, ← hfreq]; exact ht)
      (deltas.map f) (by rw [← hpix, ← hpixq, ← hdeltas]; exact hlook)
    rw [← hpix, ← hpixq, ← hdeltas, ← hfreq] at hh
    exact hh
  set encBits : List Bool := (deltas.map f).flatten with hencBits
  set pad : Nat := 8 - encBits.length % 8 with hpad
  have hpadle : pad ≤ 8 := by omega
  have hpadne : ¬pad = 0 := by omega
  have hfull : ((getEncodedBytes encBits).map (natToBits 8)).flatten
      = natToBits 8 pad ++ (encBits ++ List.replicate pad false) := by
    simp only [getEncodedBytes]
    rw [← hpad]
    apply bytesFromBits_flatten
    simp only [List.length_append, natToBits_length, List.length_replicate]
    omega
  have htake : (((getEncodedBytes encBits).map (natToBits 8)).flatten).take 8
      = natToBits 8 pad := by
    rw [hfull]; exact List.take_left' (natToBits_length 8 pad)
  have hdrop : (((getEncodedBytes encBits).map (natToBits 8)).flatten).drop 8
      = encBits ++ List.replicate pad false := by
    rw [hfull]; exact List.drop_left' (natToBits_length 8 pad)
  have hpadval :
      bitsToNat ((((getEncodedBytes encBits).map (natToBits 8)).flatten).take 8)
        = pad := by
    rw [htake]; exact bitsToNat_natToBits_eight pad hpadle
  have hdec : decompressData (getEncodedBytes encBits) freq q = some
      (dequantize (deltaInverse 0
        (decodeLoop (makeCodes t [] ([], [])).2 [] encBits)) q) := by
    have hd := decompressData_eq (getEncodedBytes encBits) freq q t
      (by rw [same_tree]; exact ht) (getEncodedBytes_ne_nil encBits)
    rw [hpadval, if_neg hpadne, hdrop] at hd
    have hlen2 : (encBits ++ List.replicate pad false).length - pad
        = encBits.length := by
      simp only [List.length_append, List.length_replicate]
      omega
    rw [hlen2, List.take_left' rfl] at hd
    exact hd
  refine ⟨getEncodedBytes encBits, freq,
    dequantize (deltaInverse 0
      (decodeLoop (makeCodes t [] ([], [])).2 [] encBits)) q,
    hcomp, hdec, ?_⟩
  by_cases hni : t.isNode = true
  · right
    rw [hencBits, decode_encode_bits t hni deltas f hentry, hdeltas]
    have hqlt : ∀ x ∈ pixq, x < 256 := by
      rw [hpixq]
      apply quantize_lt
      intro x hx
      rw [hpix] at hx
      simp only [List.mem_map] at hx
      obtain ⟨p, _, rfl⟩ := hx
      omega
    rw [deltaInverse_deltaForward pixq 0 (by omega) hqlt]
  · left
    obtain ⟨c, fr, htleaf⟩ := isNode_false t hni
    have hnil : encBits = [] := by
      rw [hencBits, List.flatten_eq_nil_iff]
      intro l hl
      simp only [List.mem_map] at hl
      obtain ⟨d, hd, rfl⟩ := hl
      have hent := hentry d hd
      rw [htleaf] at hent
      simp [codeEntries] at hent
      exact hent.1
    rw [hnil]
    simp [decodeLoop, deltaInverse, dequantize_nil]

end HuffmanCoding

namespace HuffmanCoding

theorem compressData_nil (q : Nat) : compressData [] q = none := by
  simp [compressData, compressDataSt, quantize_nil, deltaForward,
    makeFrequencyDict, dedupFirst, compressHuffmanTree, makeHeap, mergeNodes,
    mergeLoop]

end HuffmanCoding

namespace HuffmanCoding

theorem compressDataSt_eq (st : CState) (pixels : List Nat) (q : Nat)
    (root : HuffmanNode)
    (hroot : compressHuffmanTree (makeFrequencyDict (deltaForward 0
      (quantize (pixels.map (fun p => p % 256)) q))) = some root)
    (codeList : List (List Bool))
    (hlook : lookupAll (makeCodes root [] (st.codes, st.reverseMapping)).1
      (deltaForward 0 (quantize (pixels.map (fun p => p % 256)) q))
        = some codeList) :
    (compressDataSt st pixels q).map (fun r => r.2) =
      some (getEncodedBytes codeList.flatten,
        makeFrequencyDict (deltaForward 0
          (quantize (pixels.map (fun p => p % 256)) q))) := by
  simp only [compressDataSt, hroot, hlook, Option.map_some']

theorem compressDataSt_nil (st : CState) (q : Nat) :
    compressDataSt st [] q = none := by
  simp [compressDataSt, quantize_nil, deltaForward, makeFrequencyDict,
    dedupFirst, compressHuffmanTree, makeHeap, mergeNodes, mergeLoop]

/-- For a non-empty pixel list there is a tree and a coherent code function:
the tree the encoder builds, with one code entry per encoded symbol. -/
theorem encode_setup (S : List Nat) (q : Nat) (hS : S ≠ []) :
    ∃ (t : HuffmanNode) (f : Nat → List Bool),
      compressHuffmanTree (makeFrequencyDict (deltaForward 0
        (quantize (S.map (fun p => p % 256)) q))) = some t ∧
      t.leaves.Nodup ∧
      ∀ d ∈ deltaForward 0 (quantize (S.map (fun p => p % 256)) q),
        (f d, d) ∈ codeEntries t := by
  set pix : List Nat := S.map (fun p => p % 256) with hpix
  set pixq : List Nat := quantize pix q with hpixq
  set deltas : List Nat := deltaForward 0 pixq with hdeltas
  set freq : List (Nat × Nat) := makeFrequencyDict deltas with hfreq
  have hlenpix : pix.length = S.length := by rw [hpix, List.length_map]
  have hlenq : pixq.length = S.length := by rw [hpixq, quantize_length, hlenpix]
  have hlend : deltas.length = S.length := by
    rw [hdeltas, deltaForward_length, hlenq]
  have hdne : deltas ≠ [] := by
    intro h
    apply hS
    apply List.eq_nil_of_length_eq_zero
    rw [← hlend, h, List.length_nil]
  have hfne : freq ≠ [] := by rw [hfreq]; exact makeFrequencyDict_ne_nil deltas hdne
  obtain ⟨t, ht, hleaves, _⟩ := compressHuffmanTree_spec freq hfne
  have hkeys : freq.map Prod.fst = dedupFirst deltas := by
    rw [hfreq]; exact makeFrequencyDict_keys deltas
  have hnd : t.leaves.Nodup := by
    have h1 : (freq.map Prod.fst).Nodup := by
      rw [hkeys]; exact dedupFirst_nodup deltas
    exact hleaves.symm.nodup h1
  have hmem : ∀ d ∈ deltas, d ∈ t.leaves := by
    intro d hd
    have h2 : d ∈ freq.map Prod.fst := by
      rw [hkeys]; exact (mem_dedupFirst deltas d).mpr hd
    exact hleaves.mem_iff.mpr h2
  refine ⟨t, fun d => (dictGet (makeCodes t [] ([], [])).1 d).getD [], ht, hnd, ?_⟩
  intro d hd
  obtain ⟨p, hp⟩ := codes_entry_exists t d (hmem d hd)
  have hg : dictGet (makeCodes t [] ([], [])).1 d = some p :=
    codesDict_get t hnd [] [] p d hp
  simpa [hg] using hp

end HuffmanCoding

namespace HuffmanCoding

/-! ### Claim theorems -/

/-- C1: the claim states that for quantization factor 1 the full
encode-then-decode round trip returns every sample sequence over [0, 255]
exactly. The code violates this: on the singleton [5] the delta stream has a
single distinct symbol, _make_codes assigns it the empty code, the encoded
payload is empty, and decompress_data returns the empty sequence instead of
[5]. This theorem evaluates the code at that failing input. -/
theorem c1_lossless_roundtrip_bug :
    compressData [5] 1 = some ([8, 0], [(5, 1)]) ∧
    decompressData [8, 0] [(5, 1)] 1 = some [] ∧ ([] : List Nat) ≠ [5] :=
  ⟨rfl, rfl, by decide⟩

/-- C2: the claim states that a single-leaf tree still yields a non-empty
1-bit code and that uniform buffers round-trip. In the code the single leaf
gets the empty code (no depth-0 special case), so the uniform buffer
[0, 0, 0] encodes to an empty payload and decodes to [] instead of
[0, 0, 0]. This theorem evaluates the code at that failing input. -/
theorem c2_degenerate_alphabet_bug :
    (makeCodes (HuffmanNode.leaf 0 3) [] ([], [])).1 = [(0, [])] ∧
    compressData [0, 0, 0] 1 = some ([8, 0], [(0, 3)]) ∧
    decompressData [8, 0] [(0, 3)] 1 = some [] ∧ ([] : List Nat) ≠ [0, 0, 0] :=
  ⟨rfl, rfl, rfl, by decide⟩

/-- C3 counterexample: the claim predicts pad length
(8 - len mod 8) mod 8 in 0..7, with header byte 0 and no appended bits on an
8-multiple input. On the empty bit string the code emits header byte 8 and
eight appended zero bits (bytes [8, 0]), not the predicted [0]. -/
theorem c3_pad_counterexample :
    getEncodedBytes [] = [8, 0] ∧ getEncodedBytes [] ≠ [0] :=
  ⟨rfl, by decide⟩

/-- C3 amended: packing appends exactly 8 - len mod 8 zero bits, a count
that ranges over 1..8 (8, not 0, when the length is a multiple of 8), and
emits one header byte holding that count followed by the padded bits packed
8 per byte, most significant bit first. -/
theorem c3_pad_amended (B : List Bool) :
    1 ≤ 8 - B.length % 8 ∧ 8 - B.length % 8 ≤ 8 ∧
    getEncodedBytes B = (8 - B.length % 8) ::
      bytesFromBits (B ++ List.replicate (8 - B.length % 8) false) :=
  ⟨by omega, by omega, getEncodedBytes_eq B⟩

/-- C4: the Huffman tree (and the derived code table) built at encode time
and the one independently rebuilt at decode time from the same frequency
table are identical; in this embedding both sides run the same
deterministic heap construction, so tree shape is a function of the
frequency table (its multiset of entries plus the insertion-order and
heap-mechanics tie-break that the model fixes). -/
theorem c4_tree_rebuild_deterministic (frequency : List (Nat × Nat)) :
    compressHuffmanTree frequency = decompressHuffmanTree frequency ∧
    compressCodeTable frequency = decompressCodeTable frequency :=
  ⟨rfl, rfl⟩

/-- C5: for a factor q > 1, every sample the full encode-then-decode round
trip reconstructs differs from the original sample at the same position by
less than q (the reconstruction is floor(s / q) * q, at most s and short of
it by less than q). Positions are compared where both lists have entries;
on the degenerate single-symbol alphabet the code reconstructs nothing, so
there is no reconstructed sample to compare. -/
theorem c5_quantization_error_bound (S : List Nat) (q : Nat) (enc : List Nat)
    (freq : List (Nat × Nat)) (out : List Nat) (hq : 1 < q)
    (hS : ∀ s ∈ S, s ≤ 255) (hc : compressData S q = some (enc, freq))
    (hd : decompressData enc freq q = some out) :
    ∀ i, i < out.length → i < S.length →
      out.getD i 0 ≤ S.getD i 0 ∧ S.getD i 0 - out.getD i 0 < q := by
  by_cases hSne : S = []
  · rw [hSne, compressData_nil] at hc
    exact absurd hc (by simp)
  obtain ⟨enc2, freq2, out2, hc2, hd2, hcase⟩ := pipeline_spec S q hSne
  rw [hc2] at hc
  simp only [Option.some.injEq, Prod.mk.injEq] at hc
  obtain ⟨rfl, rfl⟩ := hc
  rw [hd2] at hd
  simp only [Option.some.injEq] at hd
  subst hd
  rcases hcase with rfl | rfl
  · intro i hi _
    simp at hi
  · intro i hi hiS
    simp only [quantize, dequantize, hq, if_true, List.map_map]
    rw [List.getD_eq_getElem?_getD, List.getElem?_map]
    have hv : S[i]? = some (S.getD i 0) := by
      cases hh : S[i]? with
      | none =>
        rw [List.getElem?_eq_none_iff] at hh
        omega
      | some v =>
        rw [List.getD_eq_getElem?_getD, hh]
        rfl
    rw [hv]
    simp only [Option.map_some', Option.getD_some, Function.comp]
    have hs255 : S.getD i 0 ≤ 255 := hS _ (List.getElem?_mem hv)
    have h1 : S.getD i 0 % 256 = S.getD i 0 := Nat.mod_eq_of_lt (by omega)
    rw [h1]
    have h2 : S.getD i 0 / q % 256 = S.getD i 0 / q :=
      Nat.mod_eq_of_lt (by have := Nat.div_le_self (S.getD i 0) q; omega)
    rw [h2]
    have h3 : S.getD i 0 / q * q ≤ S.getD i 0 := Nat.div_mul_le_self _ _
    have h4 : min (S.getD i 0 / q * q) 255 = S.getD i 0 / q * q :=
      Nat.min_eq_left (by omega)
    rw [h4]
    have key : S.getD i 0 / q * q + S.getD i 0 % q = S.getD i 0 := by
      rw [Nat.mul_comm]
      exact Nat.div_add_mod _ _
    have hml : S.getD i 0 % q < q := Nat.mod_lt _ (by omega)
    omega

/-- C5 witness: the bound instantiated on the concrete round trip of
[37, 200] at factor 10, whose reconstruction is [30, 200]. -/
theorem c5_quantization_error_bound_witness :
    (1 < 10) ∧ (∀ s ∈ ([37, 200] : List Nat), s ≤ 255) ∧
    compressData [37, 200] 10 = some ([6, 64], [(3, 1), (17, 1)]) ∧
    decompressData [6, 64] [(3, 1), (17, 1)] 10 = some [30, 200] ∧
    (([30, 200] : List Nat).getD 0 0 ≤ ([37, 200] : List Nat).getD 0 0 ∧
      ([37, 200] : List Nat).getD 0 0 - ([30, 200] : List Nat).getD 0 0 < 10) :=
  ⟨by decide, by decide, by decide, by decide,
    c5_quantization_error_bound [37, 200] 10 [6, 64] [(3, 1), (17, 1)]
      [30, 200] (by decide) (by decide) (by decide) (by decide) 0
      (by decide) (by decide)⟩

/-- C6 counterexample: the claim states factor 0 makes quantize and
dequantize fail with an invalid-configuration error; the code has no such
check, both run as the identity and the whole pipeline succeeds at
factor 0, here on [5, 6]. -/
theorem c6_zero_factor_counterexample :
    compressData [5, 6] 0 = some ([6, 64], [(5, 1), (1, 1)]) ∧
    decompressData [6, 64] [(5, 1), (1, 1)] 0 = some [5, 6] :=
  ⟨rfl, rfl⟩

/-- C6 amended: for every factor at most 1 -- including 0 -- quantization
and dequantization are the identity; no configuration validation exists. -/
theorem c6_zero_factor_amended (pixels : List Nat) (q : Nat) (hq : q ≤ 1) :
    quantize pixels q = pixels ∧ dequantize pixels q = pixels := by
  constructor
  · rw [quantize, if_neg (by omega)]
  · rw [dequantize, if_neg (by omega)]

/-- C6 amended witness at factor 0. -/
theorem c6_zero_factor_amended_witness :
    (0 : Nat) ≤ 1 ∧ (quantize [3] 0 = [3] ∧ dequantize [3] 0 = [3]) :=
  ⟨by decide, c6_zero_factor_amended [3] 0 (by decide)⟩

/-- C7 counterexample: the claim states decoding fails with CorruptStream
when the bits end while the accumulator holds a non-empty unmatched prefix.
With codes 3 -> 0, 1 -> 10, 2 -> 11 and payload bits 01 (one byte, pad 6),
the 0 decodes to symbol 3, the trailing 1 never matches, and the code
returns the partially decoded result rather than failing. -/
theorem c7_corrupt_stream_counterexample :
    decompressData [6, 64] [(1, 1), (2, 1), (3, 2)] 1 = some [3] ∧
    decompressData [6, 64] [(1, 1), (2, 1), (3, 2)] 1 ≠ none :=
  ⟨rfl, by decide⟩

/-- C7 amended: a trailing partial codeword is silently discarded; for any
non-empty frequency table and non-empty byte buffer, decompress_data
returns the samples decoded so far and never raises an error. -/
theorem c7_no_failure_amended (byteData : List Nat) (freq : List (Nat × Nat))
    (q : Nat) (hf : freq ≠ []) (hb : byteData ≠ []) :
    ∃ out, decompressData byteData freq q = some out := by
  obtain ⟨t, ht, _, _⟩ := compressHuffmanTree_spec freq hf
  exact ⟨_, decompressData_eq byteData freq q t (by rw [same_tree]; exact ht) hb⟩

/-- C7 amended witness: a buffer ending mid-codeword still yields a result. -/
theorem c7_no_failure_amended_witness :
    ([(1, 1), (2, 1), (3, 2)] : List (Nat × Nat)) ≠ [] ∧
    ([7, 128] : List Nat) ≠ [] ∧
    ∃ out, decompressData [7, 128] [(1, 1), (2, 1), (3, 2)] 1 = some out :=
  ⟨by decide, by decide,
    c7_no_failure_amended [7, 128] [(1, 1), (2, 1), (3, 2)] 1
      (by decide) (by decide)⟩

/-- C8: the modular cumulative sum seeded at 0 exactly inverts the modular
first difference with zero baseline, for every sample sequence over
[0, 255], regardless of wraparound. -/
theorem c8_delta_invertible (S : List Nat) (hS : ∀ x ∈ S, x < 256) :
    deltaInverse 0 (deltaForward 0 S) = S :=
  deltaInverse_deltaForward S 0 (by omega) hS

/-- C8 witness on a wrapping sequence. -/
theorem c8_delta_invertible_witness :
    (∀ x ∈ ([200, 100, 5] : List Nat), x < 256) ∧
    deltaInverse 0 (deltaForward 0 [200, 100, 5]) = [200, 100, 5] :=
  ⟨by decide, c8_delta_invertible [200, 100, 5] (by decide)⟩

/-- C9: compress_data and decompress_data are pure functions of their
arguments: whatever the instance dictionaries held when the call starts
(stale entries from any earlier compress or decompress included), the
returned byte data, frequency table and samples are those of a fresh
instance. Every code the encoder reads was freshly written by the current
call, and the decoder resets both dictionaries before use. -/
theorem c9_no_residual_state (st1 st2 : CState) (pixels : List Nat) (q : Nat)
    (byteData : List Nat) (freq : List (Nat × Nat)) (q2 : Nat) :
    (compressDataSt st1 pixels q).map (fun r => r.2)
      = (compressDataSt st2 pixels q).map (fun r => r.2) ∧
    (decompressDataSt st1 byteData freq q2).map (fun r => r.2)
      = (decompressDataSt st2 byteData freq q2).map (fun r => r.2) := by
  refine ⟨?_, rfl⟩
  by_cases hS : pixels = []
  · rw [hS, compressDataSt_nil, compressDataSt_nil]
  · obtain ⟨t, f, ht, hnd, hentry⟩ := encode_setup pixels q hS
    have hget : ∀ (c0 : List (Nat × List Bool)) (r0 : List (List Bool × Nat)),
        ∀ d ∈ deltaForward 0 (quantize (pixels.map (fun p => p % 256)) q),
          dictGet (makeCodes t [] (c0, r0)).1 d = some (f d) :=
      fun c0 r0 d hd => codesDict_get t hnd c0 r0 (f d) d (hentry d hd)
    have hlook : ∀ st : CState,
        lookupAll (makeCodes t [] (st.codes, st.reverseMapping)).1
          (deltaForward 0 (quantize (pixels.map (fun p => p % 256)) q))
          = some ((deltaForward 0
              (quantize (pixels.map (fun p => p % 256)) q)).map f) :=
      fun st => lookupAll_eq_map _ f _ (hget st.codes st.reverseMapping)
    rw [compressDataSt_eq st1 pixels q t ht _ (hlook st1),
      compressDataSt_eq st2 pixels q t ht _ (hlook st2)]

/-- C10: a byte buffer whose first (pad-length header) byte is 0 makes
decompress_data return the empty sample sequence for every non-empty
frequency table and any remaining payload, because the Python slice
bit_string[:-0] discards the entire unpacked bit string. -/
theorem c10_zero_pad_header (byteData : List Nat) (freq : List (Nat × Nat))
    (q : Nat) (hf : freq ≠ []) (hb : ∀ b ∈ byteData, b < 256) :
    decompressData (0 :: byteData) freq q = some [] := by
  obtain ⟨t, ht, _, _⟩ := compressHuffmanTree_spec freq hf
  have hd := decompressData_eq (0 :: byteData) freq q t
    (by rw [same_tree]; exact ht) (by simp)
  have hbits : (((0 :: byteData).map (natToBits 8)).flatten).take 8
      = natToBits 8 0 := by
    simp only [List.map_cons, List.flatten_cons]
    exact List.take_left' (natToBits_length 8 0)
  rw [hbits] at hd
  rw [show bitsToNat (natToBits 8 0) = 0 from rfl, if_pos rfl] at hd
  simpa [decodeLoop, deltaInverse, dequantize_nil] using hd

/-- C10 witness: header byte 0 with a non-trivial payload and factor 3. -/
theorem c10_zero_pad_header_witness :
    ([(2, 1), (9, 4)] : List (Nat × Nat)) ≠ [] ∧
    (∀ b ∈ ([170] : List Nat), b < 256) ∧
    decompressData (0 :: [170]) [(2, 1), (9, 4)] 3 = some [] :=
  ⟨by decide, by decide,
    c10_zero_pad_header [170] [(2, 1), (9, 4)] 3 (by decide) (by decide)⟩

end HuffmanCoding
